import Mathlib

/-!
Shallow embedding of `sdf-csv-join.py` (a Python 2 command-line tool that
joins molecule records between SDF and CSV files) together with proofs of
the specification claims about it.

Modelling conventions:
* A file's contents are modelled as the list of its lines, already split on
  the newline character (so the strings carry no trailing newline).
* Python dictionaries are modelled as association lists with in-place
  overwrite on duplicate keys (`dictInsert`), which preserves first-insertion
  order; the claims proved here do not depend on Python 2's (unspecified)
  hash iteration order.
* Python `None` used as a molecule key or a cell is modelled with `Option`.
* Fatal Python exceptions are modelled with `Except`.
-/

/-- The characters matched by `\s` in a Python 2 (bytes) regular expression,
and stripped by `str.rstrip()` / `str.strip()`. -/
def isPySpace (c : Char) : Bool :=
  c = ' ' || c = '\t' || c = '\n' || c = '\r' || c = '\x0b' || c = '\x0c'

/-- Python `str.rstrip()`: remove trailing whitespace. -/
def pyRstrip (s : String) : String :=
  String.mk ((s.data.reverse.dropWhile isPySpace).reverse)

/-- Python `str.strip()`: remove leading and trailing whitespace. -/
def pyStrip (s : String) : String :=
  String.mk (((s.data.dropWhile isPySpace).reverse.dropWhile isPySpace).reverse)

/-- Value of a nonempty string of decimal digits, `none` if some character is
not a digit or the list is empty. -/
def digitsVal (l : List Char) : Option Nat :=
  if l.isEmpty || !(l.all Char.isDigit) then none
  else some (l.foldl (fun acc c => acc * 10 + (c.toNat - '0'.toNat)) 0)

/-- Python 2 `int(s, base=10)` on a byte string: optional surrounding
whitespace, an optional single sign, then one or more decimal digits.
Returns `none` where Python raises `ValueError`. -/
def pyInt (s : String) : Option Int :=
  match (pyStrip s).data with
  | '+' :: rest => (digitsVal rest).map Int.ofNat
  | '-' :: rest => (digitsVal rest).map (fun n => -(Int.ofNat n))
  | l => (digitsVal l).map Int.ofNat

/-- Association-list lookup (`d[k]` / `d.get(k)` on a Python dict, modulo
`Option`): the value of the first binding of `k`. -/
def alookup {κ β : Type} [DecidableEq κ] : List (κ × β) → κ → Option β
  | [], _ => none
  | (k', v) :: rest, k => if k' = k then some v else alookup rest k

/-- Python dict assignment `d[k] = v`: overwrite in place if the key is
present, otherwise append the new binding. -/
def dictInsert {κ β : Type} [DecidableEq κ] : List (κ × β) → κ → β → List (κ × β)
  | [], k, v => [(k, v)]
  | (k', v') :: rest, k, v =>
    if k' = k then (k, v) :: rest else (k', v') :: dictInsert rest k v

/-!
## SDF parser (`parse_sdf`, `src/sdf-csv-join.py` lines 22-52)

The header pattern is `SDF_HEADER_RE = ^>\s*<(.*?)>\s*(?:\((.*?)\)\s*)?$`.
The functions below implement exactly the match semantics of that pattern on
a single line: the lazy groups take the shortest prefix that lets the rest of
the pattern match, `.` never matches a newline character, and `\s*$` succeeds
exactly on an all-whitespace remainder.
-/

/-- Scan for the closing parenthesis of the optional second group
`\((.*?)\)\s*$`: lazily take the first `')'` whose remainder is all
whitespace; `.` cannot cross a newline. `acc` holds the group text
accumulated so far, in reverse. -/
def sdfGroup2 : List Char → List Char → Option (Option String)
  | [], _ => none
  | ')' :: rest, acc =>
    if rest.all isPySpace then some (some (String.mk acc.reverse))
    else sdfGroup2 rest (')' :: acc)
  | '\n' :: _, _ => none
  | c :: rest, acc => sdfGroup2 rest (c :: acc)

/-- Match `\s*(?:\((.*?)\)\s*)?$` against the part of the line after the
closing `'>'` of the first group.  Returns the value of the second capture
group on success (`none` inside means the group did not participate). -/
def sdfTail (r : List Char) : Option (Option String) :=
  match r.dropWhile isPySpace with
  | [] => some none
  | '(' :: r2 => sdfGroup2 r2 []
  | _ => none

/-- Scan for the `'>'` closing the first group `(.*?)>`: lazily take the
first `'>'` after which the tail of the pattern matches; on failure the
`'>'` is consumed by the lazy group and the scan continues. -/
def sdfGroup1 : List Char → List Char → Option (String × Option String)
  | [], _ => none
  | '>' :: rest, acc =>
    match sdfTail rest with
    | some mol => some (String.mk acc.reverse, mol)
    | none => sdfGroup1 rest ('>' :: acc)
  | '\n' :: _, _ => none
  | c :: rest, acc => sdfGroup1 rest (c :: acc)

/-- `SDF_HEADER_RE.match(line)`: the groups `(property, raw second group)`
when the line is a property header, `none` otherwise. -/
def matchHeader (line : String) : Option (String × Option String) :=
  match line.data with
  | '>' :: rest =>
    match rest.dropWhile isPySpace with
    | '<' :: r2 => sdfGroup1 r2 []
    | _ => none
  | _ => none

/-- `mol = m.group(2) or None` (line 37): an absent or empty second group
becomes the null molecule key. -/
def orNone : Option String → Option String
  | some s => if s = "" then none else some s
  | none => none

/-- The fatal errors `parse_sdf` can raise: the two `ValueError`s of lines
43 and 49, and the `StopIteration` escaping `next(it)` on line 39. -/
inductive SdfError : Type
  | conflictingProperty (prop : String)
  | idMismatch (v : Option String) (mol : Option String)
  | endOfInput
deriving DecidableEq

/-- `result`: molecule key (null allowed) to property-name/value bucket. -/
abbrev Buckets := List (Option String × List (String × String))

/-- The accumulation loop of `parse_sdf` (lines 31-44): every header line
consumes the following line as its (right-stripped) value; a property name
already present in the molecule's bucket raises the conflicting-property
error; a header on the last line of the file raises end-of-input. -/
def accumulate : List String → Buckets → Except SdfError Buckets
  | [], acc => .ok acc
  | line :: rest, acc =>
    match matchHeader line with
    | none => accumulate rest acc
    | some (prop, g2) =>
      match rest with
      | [] => .error .endOfInput
      | v :: rest' =>
        let mol := orNone g2
        let value := pyRstrip v
        let props := (alookup acc mol).getD []
        if (alookup props prop).isSome then .error (.conflictingProperty prop)
        else accumulate rest' (dictInsert acc mol (props ++ [(prop, value)]))

/-- The checking loop of `parse_sdf` (lines 46-52): every bucket's own value
for the ID property must equal its key (`props.get(id_prop) != mol` compares
a possibly-absent value with a possibly-null key). -/
def checkIds (idProp : String) (all : Buckets) : Buckets → Except SdfError Buckets
  | [] => .ok all
  | (mol, props) :: rest =>
    if alookup props idProp ≠ mol then .error (.idMismatch (alookup props idProp) mol)
    else checkIds idProp all rest

/-- `parse_sdf(filename, id_prop)` on the lines of the file. -/
def parse_sdf (lines : List String) (idProp : String) : Except SdfError Buckets :=
  match accumulate lines [] with
  | .error e => .error e
  | .ok m => checkIds idProp m m

/-- The header/molecule pairs the accumulation loop actually processes to
completion: a header line followed by a value line contributes its property
name and (null-normalised) molecule key; a header on the final line does
not, since its value read fails first. -/
def occurrences : List String → List (String × Option String)
  | [] => []
  | line :: rest =>
    match matchHeader line with
    | none => occurrences rest
    | some (prop, g2) =>
      match rest with
      | [] => []
      | _ :: rest' => (prop, orNone g2) :: occurrences rest'

/-!
## Conflicting-property characterisation (claim C2)
-/

/-- All `(property, molecule)` pairs recorded in the accumulated buckets. -/
def bucketPairs (acc : Buckets) : List (String × Option String) :=
  acc.flatMap (fun e => e.2.map (fun pr => (pr.1, e.1)))

/-- Well-formedness maintained by the accumulation loop: molecule keys are
distinct (the outer dict) and each bucket's property names are distinct
(the inner dicts). -/
def BucketsWF (acc : Buckets) : Prop :=
  (acc.map Prod.fst).Nodup ∧ ∀ e ∈ acc, (e.2.map Prod.fst).Nodup

/-- Scan a pair sequence in order, with `seen` the set of pairs already
recorded; `true` exactly when some pair repeats an earlier one. -/
def firstConflict (seen : List (String × Option String)) :
    List (String × Option String) → Bool
  | [] => false
  | pr :: rest => if pr ∈ seen then true else firstConflict (pr :: seen) rest

/-!
## Joiner (`join_results`, `src/sdf-csv-join.py` lines 73-101)

`sort_key` builds, for each `(mol, row)` item, the list of the row's non-ID
cells each parsed as a base-10 integer when possible, with the ID cell
appended as a string.  Python 2 compares such mixed keys elementwise, any
number ordering before any string; `sorted` is a stable sort and computes
the key of every item up front, so a `None` row (an included miss) raises a
`TypeError` from `row[1:]`, and an empty row raises an `IndexError` from
`row[0]`.
-/

/-- One element of a Python 2 sort key: an int or a (byte) string. -/
inductive SKey : Type
  | i (n : Int)
  | s (v : String)
deriving DecidableEq

/-- `int(prop, base=10)` with fallback to the string itself (lines 91-94). -/
def toSKey (cell : String) : SKey :=
  match pyInt cell with
  | some n => .i n
  | none => .s cell

/-- Byte-wise strict comparison of two character lists (Python 2 `str <`). -/
def charsLt : List Char → List Char → Bool
  | [], [] => false
  | [], _ :: _ => true
  | _ :: _, [] => false
  | a :: as, b :: bs => if a = b then charsLt as bs else decide (a.toNat < b.toNat)

/-- Python 2 `<` on sort-key elements: numbers order before strings. -/
def skeyLt : SKey → SKey → Bool
  | .i a, .i b => decide (a < b)
  | .i _, .s _ => true
  | .s _, .i _ => false
  | .s a, .s b => charsLt a.data b.data

/-- Python 2 `<=` on sort keys (lists compared lexicographically). -/
def keyLe : List SKey → List SKey → Bool
  | [], _ => true
  | _ :: _, [] => false
  | a :: as, b :: bs => if a = b then keyLe as bs else skeyLt a b

/-!
## A stable insertion sort modelling Python 2 `sorted`

Python's `sorted` is a stable sort; any stable sort produces the same
output, so the model uses insertion sort (each element is inserted after
all earlier elements whose key is less than or equal to its own).
-/

/-- Insert `x` after every element `y` of `l` with `le y x`. -/
def insertSorted {α : Type} (le : α → α → Bool) (x : α) : List α → List α
  | [] => [x]
  | y :: ys => if le y x then y :: insertSorted le x ys else x :: y :: ys

/-- Stable sort by repeated insertion, processing items in order. -/
def stableSort {α : Type} (le : α → α → Bool) (l : List α) : List α :=
  l.foldl (fun acc x => insertSorted le x acc) []

/-- The cells of an output row: per requested column, the haystack record's
value, an empty string when absent (line 83:
`props.get(prop, '')` for `prop in row_type._prop_names`). -/
def buildRow (columns : List String) (props : List (String × String)) : List String :=
  columns.map (fun c => (alookup props c).getD "")

/-- The exceptions `join_results` can raise: the `TypeError` of line 83
(`row_type(**kwargs)` with a keyword the renamed fields do not expect, or a
field left unbound), the `TypeError` of `None[1:]` in `sort_key` (an
included miss reaching the sort), and the `IndexError` of `row[0]` on an
empty row. -/
inductive JoinError : Type
  | typeErrorRowKwargs
  | typeErrorNoneRow
  | indexErrorEmptyRow
deriving DecidableEq

/-- `sort_key` (lines 86-99) for an actual row: non-ID cells int-parsed in
order, then the ID cell as a string; fails on an empty row (`row[0]`). -/
def sortKey : List String → Option (List SKey)
  | [] => none
  | r0 :: rest => some (rest.map toSKey ++ [SKey.s r0])

/-- The Python 2.7 keywords (`keyword.kwlist`), rejected as `namedtuple`
field names. -/
def pyKeywords : List String :=
  ["and", "as", "assert", "break", "class", "continue", "def", "del",
   "elif", "else", "except", "exec", "finally", "for", "from", "global",
   "if", "import", "in", "is", "lambda", "not", "or", "pass", "print",
   "raise", "return", "try", "while", "with", "yield"]

/-- The rename test of `namedtuple(..., rename=True)` (Python 2.7
`collections.py`): a field name is replaced by the positional placeholder
when it has a character that is not alphanumeric or an underscore, is a
keyword, is empty, starts with a digit or an underscore, or repeats an
earlier name (`seen` holds the original names already scanned). -/
def fieldRenamed (seen : List String) (name : String) : Bool :=
  !(name.data.all (fun c => c.isAlphanum || c = '_')) ||
    pyKeywords.contains name ||
    name = "" ||
    (match name.data with
     | c :: _ => c.isDigit
     | [] => false) ||
    (match name.data with
     | '_' :: _ => true
     | _ => false) ||
    seen.contains name

/-- The rename loop of `namedtuple(..., rename=True)`: `i` is the current
position, renamed names become `'_%d' % i`. -/
def renameLoop (i : Nat) (seen : List String) : List String → List String
  | [] => []
  | n :: rest =>
    (if fieldRenamed seen n then "_" ++ toString i else n)
      :: renameLoop (i + 1) (n :: seen) rest

/-- The attribute field names of `namedtuple('Row', prop_names, rename=True)`
(line 142), as opposed to the verbatim `_prop_names` of line 143. -/
def namedtupleFields (names : List String) : List String := renameLoop 0 [] names

/-- `row_type(**dict((prop, props.get(prop, '')) for prop in _prop_names))`
(lines 83-84).  The keyword arguments are keyed by the verbatim
`_prop_names` (one per distinct name: the dict deduplicates), while the
constructor's parameters are the renamed fields, so the call succeeds only
when every field is bound exactly once -- otherwise it raises a `TypeError`
(unexpected or missing keyword argument); in particular any renamed column
name makes every hit fail.  On success each tuple slot holds the value
passed for its own field name. -/
def rowTypeCall (columns : List String) (props : List (String × String)) :
    Except JoinError (List String) :=
  if columns.Nodup ∧ (∀ f ∈ namedtupleFields columns, f ∈ columns) ∧
      (∀ c ∈ columns, c ∈ namedtupleFields columns) then
    .ok (buildRow (namedtupleFields columns) props)
  else .error .typeErrorRowKwargs

/-- The needle loop of `join_results` (lines 76-84): each hit is rebuilt as
a fixed-shape row by calling the row type with keyword arguments (a
`TypeError` when `namedtuple` renamed a column name); misses are dropped,
or recorded as `None` when `include_none` is set. -/
def joinLoop (haystack : List (String × List (String × String)))
    (columns : List String) (includeNone : Bool) :
    List (String × Option (List String)) → List String →
      Except JoinError (List (String × Option (List String)))
  | acc, [] => .ok acc
  | acc, molKey :: rest =>
    match alookup haystack molKey with
    | some props =>
      match rowTypeCall columns props with
      | .error e => .error e
      | .ok row =>
        joinLoop haystack columns includeNone
          (dictInsert acc molKey (some row)) rest
    | none =>
      if includeNone then
        joinLoop haystack columns includeNone (dictInsert acc molKey none) rest
      else joinLoop haystack columns includeNone acc rest

/-- `sorted` computes the key of every item up front (line 101): the first
`None` row raises `TypeError`, an empty row raises `IndexError`, otherwise
every item is decorated with its sort key. -/
def keyedEntries : List (String × Option (List String)) →
    Except JoinError (List (List SKey × (String × Option (List String))))
  | [] => .ok []
  | (_, none) :: _ => .error .typeErrorNoneRow
  | (molKey, some row) :: rest =>
    match sortKey row with
    | none => .error .indexErrorEmptyRow
    | some k => (keyedEntries rest).map (fun ks => (k, (molKey, some row)) :: ks)

/-- `join_results(haystack, needle, row_type, include_none)` (lines 73-101):
the looked-up rows, stably sorted by `sort_key`; a row-construction
`TypeError` inside the loop precedes any sorting error. -/
def join_results (haystack : List (String × List (String × String)))
    (needle : List String) (columns : List String) (includeNone : Bool) :
    Except JoinError (List (String × Option (List String))) :=
  match joinLoop haystack columns includeNone [] needle with
  | .error e => .error e
  | .ok entries =>
    (keyedEntries entries).map
      (fun ks => (stableSort (fun a b => keyLe a.1 b.1) ks).map Prod.snd)

/-- The sort key of a result-table entry, when defined. -/
def entryKey (e : String × Option (List String)) : Option (List SKey) :=
  e.2.bind sortKey

/-!
## Row-type factory (`create_row_type`, `src/sdf-csv-join.py` lines 134-145)

`create_row_type` normalises the property specification to a list, puts the
ID property first with every other occurrence of it removed, and stores the
resulting names verbatim as `row_type._prop_names` (line 143 makes the
namedtuple instance from the ORIGINAL names).  `namedtuple(..., rename=True)`
renames invalid or duplicate names only in the class's attribute fields,
which `_prop_names` does not reflect.
-/

/-- Split accumulated words of non-whitespace characters (`str.split()`):
`w` is the current word, reversed. -/
def splitWords : List Char → List Char → List (List Char)
  | [], [] => []
  | [], w => [w.reverse]
  | c :: rest, w =>
    if isPySpace c then
      match w with
      | [] => splitWords rest []
      | _ => w.reverse :: splitWords rest []
    else splitWords rest (c :: w)

/-- `prop_names.replace(',', ' ').split()` (line 136). -/
def pySplitSpec (s : String) : List String :=
  (splitWords (s.data.map (fun c => if c = ',' then ' ' else c)) []).map String.mk

/-- The canonical column list `row_type._prop_names` built by
`create_row_type` (lines 139-143): ID property first, the requested names
following in order with every occurrence of the ID property removed, names
kept verbatim. -/
def create_row_type (propNames : List String) (idProp : Option String) : List String :=
  match idProp with
  | some i => i :: propNames.filter (fun n => n ≠ i)
  | none => propNames

/-- `create_row_type` on a comma/whitespace-delimited specification string. -/
def create_row_type_of_spec (spec : String) (idProp : Option String) : List String :=
  create_row_type (pySplitSpec spec) idProp

/-- A legal Python identifier: nonempty, initial letter or underscore, the
remaining characters letters, digits or underscores. -/
def isLegalIdent (s : String) : Bool :=
  match s.data with
  | [] => false
  | c :: rest => (c.isAlpha || c = '_') && rest.all (fun d => d.isAlphanum || d = '_')

/-- Modelled from the claim's words (not the code): the column list the
claim describes, in which any name that is not a legal identifier is
renamed to the positional placeholder `_i`. -/
def create_row_type_claimed (propNames : List String) (idProp : String) : List String :=
  (idProp :: propNames.filter (fun n => n ≠ idProp)).mapIdx
    (fun i n => if isLegalIdent n then n else "_" ++ toString i)

/-!
## CSV reader (`read_csv`, `src/sdf-csv-join.py` lines 55-70)

The dialect sniffing and record splitting are performed by the standard
`csv` module; the model takes the records as produced by `csv.DictReader`
(an association list per row; a field absent from a short row stands for
Python `None`) and embeds the repository's own loop (lines 66-68), which
keys each record by its ID-column value with no duplicate detection.
-/

/-- `read_csv`'s accumulation loop over the reader's records: later rows
with the same ID silently overwrite earlier ones. -/
def read_csv (rows : List (List (String × String))) (idProp : String) :
    List (Option String × List (String × String)) :=
  rows.foldl (fun acc row => dictInsert acc (alookup row idProp) row) []

/-!
## Writers (`write_csv` lines 104-110, `write_lst` lines 113-117)

`csv.writer` renders each row with `,` as delimiter, `"` as quote
character, minimal quoting (a cell is quoted when it contains the
delimiter, the quote character or a line-terminator character, with inner
quotes doubled), and terminates each record with CRLF.  `write_lst` prints
the string `*e*` followed by two blank lines (the `'*e*\n\n'` payload plus
the terminating newline of `print`), then one identifier per line.
-/

/-- `csv.QUOTE_MINIMAL` rendering of one cell. -/
def renderCsvCell (s : String) : String :=
  if s.data.any (fun c => c = ',' || c = '"' || c = '\r' || c = '\n') then
    "\"" ++ String.mk (s.data.flatMap (fun c => if c = '"' then ['"', '"'] else [c]))
      ++ "\""
  else s

/-- One CSV record, without its CRLF terminator. -/
def renderCsvRow (cells : List String) : String :=
  String.intercalate "," (cells.map renderCsvCell)

/-- `writer.writerows(table.itervalues())` (line 110). -/
def csvBody : List (String × List String) → String
  | [] => ""
  | (_, row) :: rest => renderCsvRow row ++ "\r\n" ++ csvBody rest

/-- `write_csv(filename, table, row_type)`: the file's contents; the header
record is written first when a row type is given (lines 108-110). -/
def write_csv (table : List (String × List String)) (rowType : Option (List String)) :
    String :=
  (match rowType with
   | some cols => renderCsvRow cols ++ "\r\n"
   | none => "") ++ csvBody table

/-- A sequence of CRLF-terminated lines as one string. -/
def joinCrlfLines (ls : List String) : String :=
  ls.foldr (fun l acc => l ++ "\r\n" ++ acc) ""

/-- `write_lst`'s loop: one identifier per line (lines 116-117). -/
def lstBody {α : Type} : List (String × α) → String
  | [] => ""
  | (mol, _) :: rest => mol ++ "\n" ++ lstBody rest

/-- `write_lst(filename, table, row_type)`: the file's contents; the
preamble is `print('*e*\n\n')`, i.e. the payload plus `print`'s own
newline. -/
def write_lst {α : Type} (table : List (String × α)) : String :=
  "*e*\n\n" ++ "\n" ++ lstBody table

/-- Split a character list at every newline (`n` newlines give `n + 1`
segments). -/
def lineSplit : List Char → List (List Char)
  | [] => [[]]
  | c :: rest =>
    if c = '\n' then [] :: lineSplit rest
    else
      match lineSplit rest with
      | s :: ss => (c :: s) :: ss
      | [] => [[c]]

/-- The lines of a newline-terminated string (the final empty segment after
the last newline is dropped). -/
def linesOf (s : String) : List String :=
  ((lineSplit s.data).map String.mk).dropLast

theorem alookup_dictInsert {κ β : Type} [DecidableEq κ]
    (d : List (κ × β)) (k k' : κ) (v : β) :
    alookup (dictInsert d k v) k' = if k = k' then some v else alookup d k' := by
  induction d with
  | nil =>
    by_cases h : k = k'
    · subst h; simp [dictInsert, alookup]
    · simp [dictInsert, alookup, h]
  | cons hd tl ih =>
    obtain ⟨k₀, v₀⟩ := hd
    by_cases h0 : k₀ = k
    · subst h0
      by_cases h : k₀ = k'
      · subst h; simp [dictInsert, alookup]
      · simp [dictInsert, alookup, h]
    · by_cases h : k₀ = k'
      · subst h
        have hne : ¬k₀ = k := h0
        have hne2 : ¬k = k₀ := fun hc => h0 hc.symm
        simp [dictInsert, alookup, if_neg h0, if_neg hne2]
      · simp [dictInsert, alookup, if_neg h0, if_neg h, ih]

theorem mem_dictInsert {κ β : Type} [DecidableEq κ]
    (d : List (κ × β)) (k : κ) (v : β) (e : κ × β) :
    e ∈ dictInsert d k v → e = (k, v) ∨ e ∈ d := by
  induction d with
  | nil => simp [dictInsert]
  | cons hd tl ih =>
    obtain ⟨k₀, v₀⟩ := hd
    by_cases h0 : k₀ = k
    · subst h0
      simp [dictInsert]
      rintro (h | h)
      · exact Or.inl h
      · exact Or.inr (Or.inr h)
    · simp only [dictInsert, if_neg h0, List.mem_cons]
      rintro (h | h)
      · exact Or.inr (Or.inl h)
      · rcases ih h with h' | h'
        · exact Or.inl h'
        · exact Or.inr (Or.inr h')

theorem keys_dictInsert {κ β : Type} [DecidableEq κ]
    (d : List (κ × β)) (k : κ) (v : β) :
    (dictInsert d k v).map Prod.fst =
      if k ∈ d.map Prod.fst then d.map Prod.fst else d.map Prod.fst ++ [k] := by
  induction d with
  | nil => simp [dictInsert]
  | cons hd tl ih =>
    obtain ⟨k₀, v₀⟩ := hd
    by_cases h0 : k₀ = k
    · subst h0
      simp [dictInsert]
    · by_cases hmem : k ∈ List.map Prod.fst tl
      · have hmem2 : k ∈ k₀ :: List.map Prod.fst tl := by simp [hmem]
        simp only [dictInsert, if_neg h0, List.map_cons, ih, if_pos hmem, if_pos hmem2]
      · have hmem2 : k ∉ k₀ :: List.map Prod.fst tl := by
          intro hc
          rcases List.mem_cons.mp hc with hc' | hc'
          · exact h0 hc'.symm
          · exact hmem hc'
        simp only [dictInsert, if_neg h0, List.map_cons, ih, if_neg hmem, if_neg hmem2,
          List.cons_append]

theorem keysNodup_dictInsert {κ β : Type} [DecidableEq κ]
    (d : List (κ × β)) (k : κ) (v : β)
    (h : (d.map Prod.fst).Nodup) : ((dictInsert d k v).map Prod.fst).Nodup := by
  rw [keys_dictInsert]
  by_cases hmem : k ∈ d.map Prod.fst
  · simpa [hmem] using h
  · rw [if_neg hmem]
    refine List.Nodup.append h (List.nodup_singleton k) ?_
    intro a ha hak
    rw [List.mem_singleton] at hak
    exact hmem (hak ▸ ha)

theorem alookup_isSome_iff_mem_keys {κ β : Type} [DecidableEq κ]
    (l : List (κ × β)) (k : κ) :
    (alookup l k).isSome = true ↔ k ∈ l.map Prod.fst := by
  induction l with
  | nil => simp [alookup]
  | cons hd tl ih =>
    obtain ⟨k₀, v₀⟩ := hd
    by_cases h : k₀ = k
    · subst h
      simp [alookup]
    · have hstep : alookup ((k₀, v₀) :: tl) k = alookup tl k := by
        simp [alookup, h]
      rw [hstep, List.map_cons, ih]
      constructor
      · exact fun hm => List.mem_cons_of_mem _ hm
      · intro hm
        rcases List.mem_cons.mp hm with h' | h'
        · exact absurd h'.symm h
        · exact h'

theorem mem_of_alookup_eq_some {κ β : Type} [DecidableEq κ]
    (l : List (κ × β)) (k : κ) (v : β) (h : alookup l k = some v) : (k, v) ∈ l := by
  induction l with
  | nil => simp [alookup] at h
  | cons hd tl ih =>
    obtain ⟨k₀, v₀⟩ := hd
    by_cases hk : k₀ = k
    · subst hk
      simp [alookup] at h
      simp [h]
    · simp only [alookup, if_neg hk] at h
      exact List.mem_cons_of_mem _ (ih h)

theorem alookup_eq_some_of_mem_nodup {κ β : Type} [DecidableEq κ]
    (l : List (κ × β)) (k : κ) (v : β)
    (hnd : (l.map Prod.fst).Nodup) (h : (k, v) ∈ l) : alookup l k = some v := by
  induction l with
  | nil => simp at h
  | cons hd tl ih =>
    obtain ⟨k₀, v₀⟩ := hd
    simp only [List.map_cons, List.nodup_cons] at hnd
    rcases List.mem_cons.mp h with h' | h'
    · injection h' with h1 h2
      subst h1; subst h2
      simp [alookup]
    · have hk : ¬k₀ = k := by
        intro hc
        subst hc
        exact hnd.1 (List.mem_map.mpr ⟨(k₀, v), h', rfl⟩)
      simp only [alookup, if_neg hk]
      exact ih hnd.2 h'

theorem mem_dictInsert_iff {κ β : Type} [DecidableEq κ]
    (d : List (κ × β)) (k : κ) (v : β) (e : κ × β)
    (hnd : (d.map Prod.fst).Nodup) :
    e ∈ dictInsert d k v ↔ e = (k, v) ∨ (e ∈ d ∧ e.1 ≠ k) := by
  induction d with
  | nil =>
    simp [dictInsert]
  | cons hd tl ih =>
    obtain ⟨k₀, v₀⟩ := hd
    simp only [List.map_cons, List.nodup_cons] at hnd
    by_cases h0 : k₀ = k
    · subst h0
      have hstep : dictInsert ((k₀, v₀) :: tl) k₀ v = (k₀, v) :: tl := by
        simp [dictInsert]
      rw [hstep]
      constructor
      · intro h
        rcases List.mem_cons.mp h with h' | h'
        · exact Or.inl h'
        · refine Or.inr ⟨List.mem_cons_of_mem _ h', ?_⟩
          intro hc
          exact hnd.1 (List.mem_map.mpr ⟨e, h', hc⟩)
      · rintro (h | ⟨hmem, hne⟩)
        · exact List.mem_cons.mpr (Or.inl h)
        · rcases List.mem_cons.mp hmem with h' | h'
          · exact absurd (congrArg Prod.fst h') hne
          · exact List.mem_cons.mpr (Or.inr h')
    · have hstep : dictInsert ((k₀, v₀) :: tl) k v = (k₀, v₀) :: dictInsert tl k v := by
        simp [dictInsert, h0]
      rw [hstep]
      constructor
      · intro h
        rcases List.mem_cons.mp h with h' | h'
        · subst h'
          exact Or.inr ⟨List.mem_cons_self _ _, h0⟩
        · rcases (ih hnd.2).mp h' with h'' | ⟨hmem, hne⟩
          · exact Or.inl h''
          · exact Or.inr ⟨List.mem_cons_of_mem _ hmem, hne⟩
      · rintro (h | ⟨hmem, hne⟩)
        · exact List.mem_cons.mpr (Or.inr ((ih hnd.2).mpr (Or.inl h)))
        · rcases List.mem_cons.mp hmem with h' | h'
          · exact List.mem_cons.mpr (Or.inl h')
          · exact List.mem_cons.mpr (Or.inr ((ih hnd.2).mpr (Or.inr ⟨h', hne⟩)))

theorem mem_bucketPairs (acc : Buckets) (p : String) (m : Option String) :
    (p, m) ∈ bucketPairs acc ↔ ∃ props, (m, props) ∈ acc ∧ p ∈ props.map Prod.fst := by
  constructor
  · intro h
    rcases List.mem_flatMap.mp h with ⟨⟨m', props⟩, hmem, hx⟩
    rcases List.mem_map.mp hx with ⟨⟨p', v'⟩, hpr, heq⟩
    have h1 : p' = p := congrArg Prod.fst heq
    have h2 : m' = m := congrArg Prod.snd heq
    subst h1; subst h2
    exact ⟨props, hmem, List.mem_map.mpr ⟨(p', v'), hpr, rfl⟩⟩
  · rintro ⟨props, hmem, hp⟩
    rcases List.mem_map.mp hp with ⟨⟨p', v'⟩, hpr, heq⟩
    refine List.mem_flatMap.mpr ⟨(m, props), hmem, List.mem_map.mpr ⟨(p', v'), hpr, ?_⟩⟩
    simp only at heq
    simp [heq]

theorem mem_keys_getD_alookup_iff (acc : Buckets) (p : String) (m : Option String)
    (hnd : (acc.map Prod.fst).Nodup) :
    p ∈ (((alookup acc m).getD []).map Prod.fst) ↔ (p, m) ∈ bucketPairs acc := by
  rw [mem_bucketPairs]
  cases hl : alookup acc m with
  | none =>
    simp only [Option.getD_none, List.map_nil, List.not_mem_nil, false_iff]
    rintro ⟨props, hmem, _⟩
    have := alookup_eq_some_of_mem_nodup acc m props hnd hmem
    rw [hl] at this
    exact Option.noConfusion this
  | some props =>
    simp only [Option.getD_some]
    constructor
    · intro hp
      exact ⟨props, mem_of_alookup_eq_some acc m props hl, hp⟩
    · rintro ⟨props', hmem, hp⟩
      have := alookup_eq_some_of_mem_nodup acc m props' hnd hmem
      rw [hl] at this
      injection this with h
      subst h
      exact hp

theorem firstConflict_congr (occ : List (String × Option String)) :
    ∀ s₁ s₂, (∀ x, x ∈ s₁ ↔ x ∈ s₂) → firstConflict s₁ occ = firstConflict s₂ occ := by
  induction occ with
  | nil => intro s₁ s₂ _; rfl
  | cons pr rest ih =>
    intro s₁ s₂ h
    by_cases hm : pr ∈ s₁
    · simp [firstConflict, hm, (h pr).mp hm]
    · have hm2 : pr ∉ s₂ := fun hc => hm ((h pr).mpr hc)
      simp only [firstConflict, if_neg hm, if_neg hm2]
      refine ih _ _ ?_
      intro x
      simp only [List.mem_cons]
      exact or_congr Iff.rfl (h x)

theorem firstConflict_iff_not_nodup (occ : List (String × Option String)) :
    ∀ seen, seen.Nodup → (firstConflict seen occ = true ↔ ¬(seen ++ occ).Nodup) := by
  induction occ with
  | nil =>
    intro seen h
    simp [firstConflict, h]
  | cons pr rest ih =>
    intro seen h
    by_cases hm : pr ∈ seen
    · simp only [firstConflict, if_pos hm, true_iff]
      intro hc
      rcases List.nodup_append.mp hc with ⟨_, _, hdisj⟩
      exact hdisj hm (List.mem_cons_self _ _)
    · simp only [firstConflict, if_neg hm]
      rw [ih (pr :: seen) (List.nodup_cons.mpr ⟨hm, h⟩)]
      have hperm : ((pr :: seen) ++ rest).Perm (seen ++ pr :: rest) :=
        (List.perm_middle).symm.trans (by simp)
      rw [hperm.nodup_iff]

theorem bucketsWF_nil : BucketsWF [] := by
  constructor
  · simp
  · intro e he; simp at he

/-- Inserting a fresh property into a molecule's bucket preserves
well-formedness. -/
theorem bucketsWF_insert (acc : Buckets) (mol : Option String) (prop value : String)
    (hWF : BucketsWF acc)
    (habs : (alookup ((alookup acc mol).getD []) prop).isSome = false) :
    BucketsWF (dictInsert acc mol ((alookup acc mol).getD [] ++ [(prop, value)])) := by
  obtain ⟨hkeys, hbuckets⟩ := hWF
  refine ⟨keysNodup_dictInsert acc mol _ hkeys, ?_⟩
  intro e he
  rcases mem_dictInsert acc mol _ e he with h | h
  · subst h
    simp only [List.map_append, List.map_cons, List.map_nil]
    have hnd : (((alookup acc mol).getD []).map Prod.fst).Nodup := by
      cases hl : alookup acc mol with
      | none => simp
      | some props =>
        simp only [Option.getD_some]
        exact hbuckets (mol, props) (mem_of_alookup_eq_some acc mol props hl)
    have habs' : prop ∉ ((alookup acc mol).getD []).map Prod.fst := by
      intro hc
      rw [← alookup_isSome_iff_mem_keys] at hc
      rw [habs] at hc
      exact Bool.noConfusion hc
    refine List.Nodup.append hnd (List.nodup_singleton prop) ?_
    intro a ha hak
    rw [List.mem_singleton] at hak
    exact habs' (hak ▸ ha)
  · exact hbuckets e h

/-- After a successful fresh insertion, the recorded pairs grow by exactly
the new `(property, molecule)` pair. -/
theorem bucketPairs_insert (acc : Buckets) (mol : Option String) (prop value : String)
    (hkeys : (acc.map Prod.fst).Nodup) :
    ∀ x, x ∈ bucketPairs (dictInsert acc mol ((alookup acc mol).getD [] ++ [(prop, value)]))
      ↔ x = (prop, mol) ∨ x ∈ bucketPairs acc := by
  rintro ⟨p, m⟩
  rw [mem_bucketPairs, mem_bucketPairs]
  constructor
  · rintro ⟨props, hmem, hp⟩
    rcases (mem_dictInsert_iff acc mol _ (m, props) hkeys).mp hmem with h | ⟨hmem', _⟩
    · have hm : m = mol := congrArg Prod.fst h
      have hprops : props = (alookup acc mol).getD [] ++ [(prop, value)] :=
        congrArg Prod.snd h
      subst hprops
      simp only [List.map_append, List.map_cons, List.map_nil, List.mem_append,
        List.mem_singleton] at hp
      rcases hp with hp | hp
      · subst hm
        exact Or.inr ((mem_bucketPairs acc p m).mp
          ((mem_keys_getD_alookup_iff acc p m hkeys).mp hp))
      · subst hp
        subst hm
        exact Or.inl rfl
    · exact Or.inr ⟨props, hmem', hp⟩
  · rintro (h | ⟨props, hmem, hp⟩)
    · have hpp : p = prop := congrArg Prod.fst h
      have hm : m = mol := congrArg Prod.snd h
      subst hpp
      subst hm
      refine ⟨(alookup acc m).getD [] ++ [(p, value)],
        (mem_dictInsert_iff acc m _ _ hkeys).mpr (Or.inl rfl), ?_⟩
      simp
    · by_cases hm : m = mol
      · subst hm
        have hl : alookup acc m = some props :=
          alookup_eq_some_of_mem_nodup acc m props hkeys hmem
        refine ⟨(alookup acc m).getD [] ++ [(prop, value)],
          (mem_dictInsert_iff acc m _ _ hkeys).mpr (Or.inl rfl), ?_⟩
        rw [hl]
        simp only [Option.getD_some, List.map_append, List.mem_append]
        exact Or.inl hp
      · exact ⟨props, (mem_dictInsert_iff acc mol _ (m, props) hkeys).mpr
          (Or.inr ⟨hmem, hm⟩), hp⟩

/-- The accumulation loop raises a conflicting-property error exactly when
the processed `(property, molecule)` pairs repeat one already recorded. -/
theorem accumulate_conflict :
    ∀ (lines : List String) (acc : Buckets), BucketsWF acc →
      ((∃ p, accumulate lines acc = .error (.conflictingProperty p)) ↔
        firstConflict (bucketPairs acc) (occurrences lines) = true) := by
  intro lines acc
  induction lines, acc using accumulate.induct with
  | case1 acc =>
    intro _
    simp [accumulate, occurrences, firstConflict]
  | case2 line rest acc hm ih =>
    intro hWF
    have e1 : accumulate (line :: rest) acc = accumulate rest acc := by
      simp [accumulate, hm]
    have e2 : occurrences (line :: rest) = occurrences rest := by
      simp [occurrences, hm]
    rw [e1, e2]
    exact ih hWF
  | case3 line acc prop g2 hm =>
    intro _
    have e1 : accumulate [line] acc = .error .endOfInput := by
      simp [accumulate, hm]
    have e2 : occurrences [line] = [] := by
      simp [occurrences, hm]
    rw [e1, e2]
    simp [firstConflict]
  | case4 line acc prop g2 hm v rest' mol props hsome0 =>
    intro hWF
    have hsome : (alookup ((alookup acc (orNone g2)).getD []) prop).isSome = true := hsome0
    have e1 : accumulate (line :: v :: rest') acc = .error (.conflictingProperty prop) := by
      simp [accumulate, hm, hsome]
    have e2 : occurrences (line :: v :: rest') = (prop, orNone g2) :: occurrences rest' := by
      simp [occurrences, hm]
    rw [e1, e2]
    have hmem : (prop, orNone g2) ∈ bucketPairs acc := by
      rw [← mem_keys_getD_alookup_iff acc prop (orNone g2) hWF.1,
        ← alookup_isSome_iff_mem_keys]
      exact hsome
    simp [firstConflict, hmem]
  | case5 line acc prop g2 hm v rest' mol value props hnone0 ih =>
    intro hWF
    have hnone : ¬(alookup ((alookup acc (orNone g2)).getD []) prop).isSome = true := hnone0
    have hnotsome : (alookup ((alookup acc (orNone g2)).getD []) prop).isSome = false := by
      simpa using hnone
    have e1 : accumulate (line :: v :: rest') acc =
        accumulate rest' (dictInsert acc (orNone g2)
          (((alookup acc (orNone g2)).getD []) ++ [(prop, pyRstrip v)])) := by
      simp [accumulate, hm, hnotsome]
    have e2 : occurrences (line :: v :: rest') = (prop, orNone g2) :: occurrences rest' := by
      simp [occurrences, hm]
    have hWF' : BucketsWF (dictInsert acc (orNone g2)
        (((alookup acc (orNone g2)).getD []) ++ [(prop, pyRstrip v)])) :=
      bucketsWF_insert acc (orNone g2) prop (pyRstrip v) hWF hnotsome
    rw [e1, e2, ih hWF']
    have hnotmem : (prop, orNone g2) ∉ bucketPairs acc := by
      rw [← mem_keys_getD_alookup_iff acc prop (orNone g2) hWF.1,
        ← alookup_isSome_iff_mem_keys, hnotsome]
      simp
    have estep : firstConflict (bucketPairs acc) ((prop, orNone g2) :: occurrences rest') =
        firstConflict ((prop, orNone g2) :: bucketPairs acc) (occurrences rest') := by
      simp [firstConflict, hnotmem]
    rw [estep]
    have hcongr := firstConflict_congr (occurrences rest')
      (bucketPairs (dictInsert acc (orNone g2)
        (((alookup acc (orNone g2)).getD []) ++ [(prop, pyRstrip v)])))
      ((prop, orNone g2) :: bucketPairs acc)
      (fun x => by
        rw [bucketPairs_insert acc (orNone g2) prop (pyRstrip v) hWF.1 x, List.mem_cons])
    rw [hcongr]

/-- The checking loop never raises a conflicting-property error. -/
theorem checkIds_not_conflict (idProp : String) (all : Buckets) (l : Buckets) (p : String) :
    checkIds idProp all l ≠ .error (.conflictingProperty p) := by
  induction l with
  | nil => simp [checkIds]
  | cons hd tl ih =>
    obtain ⟨mol, props⟩ := hd
    by_cases h : alookup props idProp = mol
    · simpa [checkIds, h] using ih
    · simp [checkIds, h]

/-- If the checking loop succeeds, it returns the whole mapping unchanged
and every scanned bucket's ID value equals its key. -/
theorem checkIds_ok_inv (idProp : String) (all : Buckets) :
    ∀ l r, checkIds idProp all l = .ok r →
      r = all ∧ ∀ e ∈ l, alookup e.2 idProp = e.1 := by
  intro l
  induction l with
  | nil =>
    intro r h
    simp only [checkIds] at h
    injection h with h
    exact ⟨h.symm, by simp⟩
  | cons hd tl ih =>
    obtain ⟨mol, props⟩ := hd
    intro r h
    by_cases hc : alookup props idProp = mol
    · have hstep : checkIds idProp all ((mol, props) :: tl) = checkIds idProp all tl := by
        simp [checkIds, hc]
      rw [hstep] at h
      obtain ⟨h1, h2⟩ := ih r h
      refine ⟨h1, ?_⟩
      intro e he
      rcases List.mem_cons.mp he with h' | h'
      · subst h'; exact hc
      · exact h2 e h'
    · simp [checkIds, hc] at h

/-- If some scanned bucket's ID value differs from its key, the checking
loop raises an ID-mismatch error. -/
theorem checkIds_mismatch (idProp : String) (all : Buckets) :
    ∀ l, (∃ e ∈ l, alookup e.2 idProp ≠ e.1) →
      ∃ a b, checkIds idProp all l = .error (.idMismatch a b) := by
  intro l
  induction l with
  | nil =>
    rintro ⟨e, he, _⟩
    simp at he
  | cons hd tl ih =>
    obtain ⟨mol, props⟩ := hd
    rintro ⟨e, he, hne⟩
    by_cases hc : alookup props idProp = mol
    · have hstep : checkIds idProp all ((mol, props) :: tl) = checkIds idProp all tl := by
        simp [checkIds, hc]
      rw [hstep]
      refine ih ⟨e, ?_, hne⟩
      rcases List.mem_cons.mp he with h' | h'
      · subst h'
        exact absurd hc hne
      · exact h'
    · refine ⟨alookup props idProp, mol, ?_⟩
      simp [checkIds, hc]

/-- If every scanned bucket's ID value equals its key, the checking loop
succeeds. -/
theorem checkIds_all_ok (idProp : String) (all : Buckets) :
    ∀ l, (∀ e ∈ l, alookup e.2 idProp = e.1) → checkIds idProp all l = .ok all := by
  intro l
  induction l with
  | nil => intro _; simp [checkIds]
  | cons hd tl ih =>
    obtain ⟨mol, props⟩ := hd
    intro hall
    have hc : alookup props idProp = mol := hall (mol, props) (List.mem_cons_self _ _)
    have hstep : checkIds idProp all ((mol, props) :: tl) = checkIds idProp all tl := by
      simp [checkIds, hc]
    rw [hstep]
    exact ih (fun e he => hall e (List.mem_cons_of_mem _ he))

theorem parse_sdf_of_accumulate_error (lines : List String) (idProp : String)
    (e : SdfError) (h : accumulate lines [] = .error e) :
    parse_sdf lines idProp = .error e := by
  unfold parse_sdf
  rw [h]

theorem parse_sdf_of_accumulate_ok (lines : List String) (idProp : String)
    (m : Buckets) (h : accumulate lines [] = .ok m) :
    parse_sdf lines idProp = checkIds idProp m m := by
  unfold parse_sdf
  rw [h]

/-- Successful accumulation preserves bucket well-formedness. -/
theorem accumulate_ok_WF :
    ∀ (lines : List String) (acc : Buckets), BucketsWF acc →
      ∀ m, accumulate lines acc = .ok m → BucketsWF m := by
  intro lines acc
  induction lines, acc using accumulate.induct with
  | case1 acc =>
    intro hWF m h
    simp only [accumulate] at h
    injection h with h
    exact h ▸ hWF
  | case2 line rest acc hm ih =>
    intro hWF m h
    have e1 : accumulate (line :: rest) acc = accumulate rest acc := by
      simp [accumulate, hm]
    rw [e1] at h
    exact ih hWF m h
  | case3 line acc prop g2 hm =>
    intro _ m h
    have e1 : accumulate [line] acc = .error .endOfInput := by
      simp [accumulate, hm]
    rw [e1] at h
    exact Except.noConfusion h
  | case4 line acc prop g2 hm v rest' mol props hsome0 =>
    intro hWF m h
    have hsome : (alookup ((alookup acc (orNone g2)).getD []) prop).isSome = true := hsome0
    have e1 : accumulate (line :: v :: rest') acc = .error (.conflictingProperty prop) := by
      simp [accumulate, hm, hsome]
    rw [e1] at h
    exact Except.noConfusion h
  | case5 line acc prop g2 hm v rest' mol value props hnone0 ih =>
    intro hWF m h
    have hnone : ¬(alookup ((alookup acc (orNone g2)).getD []) prop).isSome = true := hnone0
    have hnotsome : (alookup ((alookup acc (orNone g2)).getD []) prop).isSome = false := by
      simpa using hnone
    have e1 : accumulate (line :: v :: rest') acc =
        accumulate rest' (dictInsert acc (orNone g2)
          (((alookup acc (orNone g2)).getD []) ++ [(prop, pyRstrip v)])) := by
      simp [accumulate, hm, hnotsome]
    rw [e1] at h
    exact ih (bucketsWF_insert acc (orNone g2) prop (pyRstrip v) hWF hnotsome) m h

/-- Every pair already recorded, and every pair processed from the input,
ends up recorded in the final buckets of a successful accumulation. -/
theorem accumulate_ok_mem :
    ∀ (lines : List String) (acc : Buckets), BucketsWF acc →
      ∀ m, accumulate lines acc = .ok m →
        ∀ x, (x ∈ bucketPairs acc ∨ x ∈ occurrences lines) → x ∈ bucketPairs m := by
  intro lines acc
  induction lines, acc using accumulate.induct with
  | case1 acc =>
    intro hWF m h x hx
    simp only [accumulate] at h
    injection h with h
    subst h
    rcases hx with hx | hx
    · exact hx
    · simp [occurrences] at hx
  | case2 line rest acc hm ih =>
    intro hWF m h x hx
    have e1 : accumulate (line :: rest) acc = accumulate rest acc := by
      simp [accumulate, hm]
    have e2 : occurrences (line :: rest) = occurrences rest := by
      simp [occurrences, hm]
    rw [e1] at h
    rw [e2] at hx
    exact ih hWF m h x hx
  | case3 line acc prop g2 hm =>
    intro _ m h x hx
    have e1 : accumulate [line] acc = .error .endOfInput := by
      simp [accumulate, hm]
    rw [e1] at h
    exact Except.noConfusion h
  | case4 line acc prop g2 hm v rest' mol props hsome0 =>
    intro hWF m h x hx
    have hsome : (alookup ((alookup acc (orNone g2)).getD []) prop).isSome = true := hsome0
    have e1 : accumulate (line :: v :: rest') acc = .error (.conflictingProperty prop) := by
      simp [accumulate, hm, hsome]
    rw [e1] at h
    exact Except.noConfusion h
  | case5 line acc prop g2 hm v rest' mol value props hnone0 ih =>
    intro hWF m h x hx
    have hnone : ¬(alookup ((alookup acc (orNone g2)).getD []) prop).isSome = true := hnone0
    have hnotsome : (alookup ((alookup acc (orNone g2)).getD []) prop).isSome = false := by
      simpa using hnone
    have e1 : accumulate (line :: v :: rest') acc =
        accumulate rest' (dictInsert acc (orNone g2)
          (((alookup acc (orNone g2)).getD []) ++ [(prop, pyRstrip v)])) := by
      simp [accumulate, hm, hnotsome]
    have e2 : occurrences (line :: v :: rest') = (prop, orNone g2) :: occurrences rest' := by
      simp [occurrences, hm]
    rw [e1] at h
    rw [e2] at hx
    have hWF' := bucketsWF_insert acc (orNone g2) prop (pyRstrip v) hWF hnotsome
    refine ih hWF' m h x ?_
    have hins := bucketPairs_insert acc (orNone g2) prop (pyRstrip v) hWF.1 x
    rcases hx with hx | hx
    · exact Or.inl (hins.mpr (Or.inr hx))
    · rcases List.mem_cons.mp hx with hx' | hx'
      · exact Or.inl (hins.mpr (Or.inl hx'))
      · exact Or.inr hx'

/-- C2: `parse_sdf` raises a conflicting-property error if and only if two
identically-named properties occur (as fully processed header/value pairs)
under the same molecule bucket; in particular, with no such duplicate pair
no conflicting-property error is ever raised. -/
theorem C2_parse_sdf_conflict_iff_duplicate (lines : List String) (idProp : String) :
    (∃ p, parse_sdf lines idProp = .error (.conflictingProperty p)) ↔
      ¬(occurrences lines).Nodup := by
  have hmain := accumulate_conflict lines [] bucketsWF_nil
  have hfc := firstConflict_iff_not_nodup (occurrences lines) [] List.nodup_nil
  have hbp : bucketPairs ([] : Buckets) = [] := rfl
  rw [hbp] at hmain
  rw [List.nil_append] at hfc
  constructor
  · rintro ⟨p, hp⟩
    cases hacc : accumulate lines [] with
    | error e =>
      rw [parse_sdf_of_accumulate_error lines idProp e hacc] at hp
      injection hp with hp
      exact hfc.mp (hmain.mp ⟨p, by rw [hacc, hp]⟩)
    | ok m =>
      rw [parse_sdf_of_accumulate_ok lines idProp m hacc] at hp
      exact absurd hp (checkIds_not_conflict idProp m m p)
  · intro h
    obtain ⟨p, hp⟩ := hmain.mpr (hfc.mpr h)
    exact ⟨p, parse_sdf_of_accumulate_error lines idProp _ hp⟩

/-- C3: for an input whose accumulation phase completes (so no
conflicting-property error), `parse_sdf` raises an ID-mismatch error when
some bucket's recorded ID-property value differs from its own key, and
returns the accumulated mapping when every bucket's ID value equals its
key. -/
theorem C3_parse_sdf_id_check (lines : List String) (idProp : String) (m : Buckets)
    (hacc : accumulate lines [] = .ok m) :
    ((∃ e ∈ m, alookup e.2 idProp ≠ e.1) →
      ∃ a b, parse_sdf lines idProp = .error (.idMismatch a b)) ∧
    ((∀ e ∈ m, alookup e.2 idProp = e.1) → parse_sdf lines idProp = .ok m) := by
  have hparse := parse_sdf_of_accumulate_ok lines idProp m hacc
  constructor
  · intro hex
    rw [hparse]
    exact checkIds_mismatch idProp m m hex
  · intro hall
    rw [hparse]
    exact checkIds_all_ok idProp m m hall

/-- C3 witness: a block whose ID property equals its key parses to the
accumulated mapping, and a block whose ID property differs raises an
ID-mismatch error. -/
theorem C3_parse_sdf_id_check_witness :
    parse_sdf ["> <ID> (M)", "M"] "ID" = .ok [(some "M", [("ID", "M")])] ∧
    (∃ a b, parse_sdf ["> <ID> (M)", "X"] "ID" = .error (.idMismatch a b)) := by
  constructor
  · exact (C3_parse_sdf_id_check ["> <ID> (M)", "M"] "ID" [(some "M", [("ID", "M")])]
      rfl).2 (by decide)
  · exact (C3_parse_sdf_id_check ["> <ID> (M)", "X"] "ID" [(some "M", [("ID", "X")])]
      rfl).1 (by decide)

/-- C10: properties whose header carries no molecule ID accumulate under the
null bucket key; the parse can succeed only when the designated ID property
is absent from that null bucket, and a successful parse returns the
accumulated mapping, null key included. -/
theorem C10_parse_sdf_null_bucket (lines : List String) (idProp : String)
    (m : Buckets) (p : String)
    (hacc : accumulate lines [] = .ok m)
    (hp : (p, none) ∈ occurrences lines) :
    ∃ props, alookup m none = some props ∧ p ∈ props.map Prod.fst ∧
      ∀ r, parse_sdf lines idProp = .ok r → r = m ∧ alookup props idProp = none := by
  have hWFm : BucketsWF m := accumulate_ok_WF lines [] bucketsWF_nil m hacc
  have hx : (p, none) ∈ bucketPairs m :=
    accumulate_ok_mem lines [] bucketsWF_nil m hacc _ (Or.inr hp)
  obtain ⟨props, hmem, hpk⟩ := (mem_bucketPairs m p none).mp hx
  have hl : alookup m none = some props :=
    alookup_eq_some_of_mem_nodup m none props hWFm.1 hmem
  refine ⟨props, hl, hpk, ?_⟩
  intro r hr
  rw [parse_sdf_of_accumulate_ok lines idProp m hacc] at hr
  obtain ⟨hrm, hall⟩ := checkIds_ok_inv idProp m m r hr
  exact ⟨hrm, hall (none, props) hmem⟩

/-- C10 witness: a file with one ungrouped property and one well-keyed
molecule block exposes the null bucket in a successful parse. -/
theorem C10_parse_sdf_null_bucket_witness :
    ∃ props, alookup ([(none, [("P", "v")]), (some "M", [("ID", "M")])] : Buckets) none
        = some props ∧
      "P" ∈ props.map Prod.fst ∧
      ∀ r, parse_sdf ["> <P>", "v", "> <ID> (M)", "M"] "ID" = .ok r →
        r = [(none, [("P", "v")]), (some "M", [("ID", "M")])] ∧
        alookup props "ID" = none :=
  C10_parse_sdf_null_bucket ["> <P>", "v", "> <ID> (M)", "M"] "ID"
    [(none, [("P", "v")]), (some "M", [("ID", "M")])] "P" rfl (by decide)

theorem charsLt_irrefl : ∀ l, charsLt l l = false := by
  intro l
  induction l with
  | nil => rfl
  | cons a l ih => simp [charsLt, ih]

theorem charsLt_trans : ∀ a b c, charsLt a b = true → charsLt b c = true →
    charsLt a c = true := by
  intro a
  induction a with
  | nil =>
    intro b c hab hbc
    cases b with
    | nil => exact absurd hab (by simp [charsLt])
    | cons b bs =>
      cases c with
      | nil => exact absurd hbc (by simp [charsLt])
      | cons c cs => simp [charsLt]
  | cons a as ih =>
    intro b c hab hbc
    cases b with
    | nil => exact absurd hab (by simp [charsLt])
    | cons b bs =>
      cases c with
      | nil => exact absurd hbc (by simp [charsLt])
      | cons c cs =>
        by_cases h1 : a = b
        · subst h1
          simp only [charsLt, if_pos rfl] at hab
          by_cases h2 : a = c
          · subst h2
            simp only [charsLt, if_pos rfl] at hbc ⊢
            exact ih bs cs hab hbc
          · simp only [charsLt, if_neg h2] at hbc ⊢
            exact hbc
        · by_cases h2 : b = c
          · subst h2
            simp only [charsLt, if_neg h1] at hab ⊢
            exact hab
          · simp only [charsLt, if_neg h1] at hab
            simp only [charsLt, if_neg h2] at hbc
            by_cases h3 : a = c
            · subst h3
              exfalso
              simp only [decide_eq_true_eq] at hab hbc
              omega
            · simp only [charsLt, if_neg h3, decide_eq_true_eq]
              simp only [decide_eq_true_eq] at hab hbc
              omega

theorem charsLt_total_of_ne : ∀ a b, a ≠ b →
    charsLt a b = true ∨ charsLt b a = true := by
  intro a
  induction a with
  | nil =>
    intro b hne
    cases b with
    | nil => exact absurd rfl hne
    | cons b bs => left; simp [charsLt]
  | cons a as ih =>
    intro b hne
    cases b with
    | nil => right; simp [charsLt]
    | cons b bs =>
      by_cases h : a = b
      · subst h
        have hne' : as ≠ bs := by
          intro hc
          exact hne (by rw [hc])
        rcases ih bs hne' with h' | h'
        · left; simpa [charsLt] using h'
        · right; simpa [charsLt] using h'
      · have htn : a.toNat ≠ b.toNat := by
          intro hc
          have := congrArg Char.ofNat hc
          rw [Char.ofNat_toNat, Char.ofNat_toNat] at this
          exact h this
        by_cases hlt : a.toNat < b.toNat
        · left; simp [charsLt, h, hlt]
        · right
          have hba : ¬b = a := fun hc => h hc.symm
          have hlt2 : b.toNat < a.toNat := by omega
          simp [charsLt, hba, hlt2]

theorem skeyLt_irrefl : ∀ a, skeyLt a a = false := by
  intro a
  cases a with
  | i n => simp [skeyLt]
  | s v => simp [skeyLt, charsLt_irrefl]

theorem skeyLt_trans : ∀ a b c, skeyLt a b = true → skeyLt b c = true →
    skeyLt a c = true := by
  intro a b c hab hbc
  cases a with
  | i na =>
    cases c with
    | i nc =>
      cases b with
      | i nb =>
        simp only [skeyLt, decide_eq_true_eq] at hab hbc ⊢
        omega
      | s vb => exact absurd hbc (by simp [skeyLt])
    | s vc => simp [skeyLt]
  | s va =>
    cases b with
    | i nb => exact absurd hab (by simp [skeyLt])
    | s vb =>
      cases c with
      | i nc => exact absurd hbc (by simp [skeyLt])
      | s vc =>
        simp only [skeyLt] at hab hbc ⊢
        exact charsLt_trans va.data vb.data vc.data hab hbc

theorem skeyLt_total_of_ne : ∀ a b, a ≠ b → skeyLt a b = true ∨ skeyLt b a = true := by
  intro a b hne
  cases a with
  | i na =>
    cases b with
    | i nb =>
      have : na ≠ nb := by
        intro hc
        exact hne (by rw [hc])
      simp only [skeyLt, decide_eq_true_eq]
      omega
    | s vb => left; simp [skeyLt]
  | s va =>
    cases b with
    | i nb => right; simp [skeyLt]
    | s vb =>
      have hdata : va.data ≠ vb.data := by
        intro hc
        exact hne (by
          cases va
          cases vb
          simp only [SKey.s.injEq]
          exact congrArg String.mk hc)
      simpa [skeyLt] using charsLt_total_of_ne va.data vb.data hdata

theorem keyLe_total : ∀ a b, (keyLe a b || keyLe b a) = true := by
  intro a
  induction a with
  | nil => intro b; simp [keyLe]
  | cons x as ih =>
    intro b
    cases b with
    | nil => simp [keyLe]
    | cons y bs =>
      by_cases h : x = y
      · subst h
        simpa [keyLe] using ih bs
      · have hne : ¬y = x := fun hc => h hc.symm
        rcases skeyLt_total_of_ne x y h with h' | h'
        · simp [keyLe, h, hne, h']
        · simp [keyLe, h, hne, h']

theorem keyLe_trans : ∀ a b c, keyLe a b = true → keyLe b c = true →
    keyLe a c = true := by
  intro a
  induction a with
  | nil => intro b c _ _; simp [keyLe]
  | cons x as ih =>
    intro b c hab hbc
    cases b with
    | nil => exact absurd hab (by simp [keyLe])
    | cons y bs =>
      cases c with
      | nil => exact absurd hbc (by simp [keyLe])
      | cons z cs =>
        by_cases h1 : x = y
        · subst h1
          simp only [keyLe, if_pos rfl] at hab
          by_cases h2 : x = z
          · subst h2
            simp only [keyLe, if_pos rfl] at hbc ⊢
            exact ih bs cs hab hbc
          · simp only [keyLe, if_neg h2] at hbc ⊢
            exact hbc
        · simp only [keyLe, if_neg h1] at hab
          by_cases h2 : y = z
          · subst h2
            have h3 : ¬x = y := h1
            simp only [keyLe, if_neg h3]
            exact hab
          · simp only [keyLe, if_neg h2] at hbc
            by_cases h3 : x = z
            · subst h3
              exfalso
              have := skeyLt_trans x y x hab hbc
              rw [skeyLt_irrefl] at this
              exact Bool.noConfusion this
            · simp only [keyLe, if_neg h3]
              exact skeyLt_trans x y z hab hbc

theorem insertSorted_perm {α : Type} (le : α → α → Bool) (x : α) :
    ∀ l : List α, (insertSorted le x l).Perm (x :: l) := by
  intro l
  induction l with
  | nil => simp [insertSorted]
  | cons y ys ih =>
    by_cases h : le y x
    · simp only [insertSorted, if_pos h]
      exact (ih.cons y).trans (List.Perm.swap x y ys)
    · simp [insertSorted, h]

theorem stableSort_perm {α : Type} (le : α → α → Bool) (l : List α) :
    (stableSort le l).Perm l := by
  have hgen : ∀ (l acc : List α),
      (l.foldl (fun acc x => insertSorted le x acc) acc).Perm (acc ++ l) := by
    intro l
    induction l with
    | nil => intro acc; simp
    | cons x xs ih =>
      intro acc
      have h1 := ih (insertSorted le x acc)
      have h2 : (insertSorted le x acc ++ xs).Perm (acc ++ x :: xs) := by
        refine ((insertSorted_perm le x acc).append_right xs).trans ?_
        exact List.perm_middle.symm
      simpa [List.foldl_cons] using h1.trans h2
  simpa using hgen l []

theorem insertSorted_pairwise {α : Type} (le : α → α → Bool)
    (htrans : ∀ a b c, le a b = true → le b c = true → le a c = true)
    (htotal : ∀ a b, (le a b || le b a) = true)
    (x : α) : ∀ l : List α, l.Pairwise (fun a b => le a b = true) →
      (insertSorted le x l).Pairwise (fun a b => le a b = true) := by
  intro l
  induction l with
  | nil =>
    intro _
    simp [insertSorted]
  | cons y ys ih =>
    intro hp
    rcases List.pairwise_cons.mp hp with ⟨hy, hys⟩
    by_cases h : le y x
    · simp only [insertSorted, if_pos h]
      refine List.pairwise_cons.mpr ⟨?_, ih hys⟩
      intro z hz
      rcases List.mem_cons.mp ((insertSorted_perm le x ys).mem_iff.mp hz) with hz' | hz'
      · exact hz' ▸ h
      · exact hy z hz'
    · have hxy : le x y = true := by
        rcases Bool.or_eq_true_iff.mp (htotal y x) with h' | h'
        · exact absurd h' h
        · exact h'
      simp only [insertSorted, if_neg h]
      refine List.pairwise_cons.mpr ⟨?_, hp⟩
      intro z hz
      rcases List.mem_cons.mp hz with hz' | hz'
      · exact hz' ▸ hxy
      · exact htrans x y z hxy (hy z hz')

theorem stableSort_pairwise {α : Type} (le : α → α → Bool)
    (htrans : ∀ a b c, le a b = true → le b c = true → le a c = true)
    (htotal : ∀ a b, (le a b || le b a) = true)
    (l : List α) : (stableSort le l).Pairwise (fun a b => le a b = true) := by
  have hgen : ∀ (l acc : List α), acc.Pairwise (fun a b => le a b = true) →
      (l.foldl (fun acc x => insertSorted le x acc) acc).Pairwise
        (fun a b => le a b = true) := by
    intro l
    induction l with
    | nil => intro acc h; simpa using h
    | cons x xs ih =>
      intro acc h
      simpa [List.foldl_cons] using
        ih (insertSorted le x acc) (insertSorted_pairwise le htrans htotal x acc h)
  exact hgen l [] (by simp)

theorem keyedEntries_ok_inv :
    ∀ entries ks, keyedEntries entries = .ok ks →
      ks.map Prod.snd = entries ∧ ∀ pr ∈ ks, entryKey pr.2 = some pr.1 := by
  intro entries
  induction entries with
  | nil =>
    intro ks h
    simp only [keyedEntries] at h
    injection h with h
    subst h
    exact ⟨rfl, by simp⟩
  | cons e rest ih =>
    obtain ⟨molKey, orow⟩ := e
    cases orow with
    | none =>
      intro ks h
      simp only [keyedEntries] at h
      exact Except.noConfusion h
    | some row =>
      intro ks h
      cases hsk : sortKey row with
      | none =>
        simp only [keyedEntries, hsk] at h
        exact Except.noConfusion h
      | some k =>
        simp only [keyedEntries, hsk] at h
        cases hrest : keyedEntries rest with
        | error e' =>
          rw [hrest] at h
          exact Except.noConfusion h
        | ok ks' =>
          rw [hrest] at h
          simp only [Except.map] at h
          injection h with h
          subst h
          obtain ⟨hmap, hkeys⟩ := ih ks' hrest
          constructor
          · simp [hmap]
          · intro pr hpr
            rcases List.mem_cons.mp hpr with hpr' | hpr'
            · subst hpr'
              simp [entryKey, hsk]
            · exact hkeys pr hpr'

theorem keyedEntries_ok_of_shape :
    ∀ entries, (∀ e ∈ entries, ∃ row, e.2 = some row ∧ row ≠ []) →
      ∃ ks, keyedEntries entries = .ok ks := by
  intro entries
  induction entries with
  | nil => intro _; exact ⟨[], rfl⟩
  | cons e rest ih =>
    obtain ⟨molKey, orow⟩ := e
    intro hshape
    obtain ⟨row, hrow, hne⟩ := hshape (molKey, orow) (List.mem_cons_self _ _)
    simp only at hrow
    subst hrow
    obtain ⟨ks', hks'⟩ := ih (fun e he => hshape e (List.mem_cons_of_mem _ he))
    cases row with
    | nil => exact absurd rfl hne
    | cons r0 rtail =>
      refine ⟨(List.map toSKey rtail ++ [SKey.s r0], (molKey, some (r0 :: rtail))) :: ks', ?_⟩
      simp [keyedEntries, sortKey, hks', Except.map]

theorem renameLoop_length :
    ∀ (names : List String) (i : Nat) (seen : List String),
      (renameLoop i seen names).length = names.length := by
  intro names
  induction names with
  | nil => intro i seen; rfl
  | cons n rest ih =>
    intro i seen
    simp [renameLoop, ih]

theorem rowTypeCall_length (columns : List String) (props : List (String × String))
    (row : List String) (h : rowTypeCall columns props = .ok row) :
    row.length = columns.length := by
  unfold rowTypeCall at h
  by_cases hc : columns.Nodup ∧ (∀ f ∈ namedtupleFields columns, f ∈ columns) ∧
      (∀ c ∈ columns, c ∈ namedtupleFields columns)
  · rw [if_pos hc] at h
    injection h with h
    subst h
    simp [buildRow, namedtupleFields, renameLoop_length]
  · rw [if_neg hc] at h
    exact Except.noConfusion h

/-- When the namedtuple keeps every column name verbatim (and the names are
distinct), the keyword-argument round trip of line 83 succeeds and yields
the `props.get(column, '')` row. -/
theorem rowTypeCall_verbatim (columns : List String) (props : List (String × String))
    (hfields : namedtupleFields columns = columns) (hnd : columns.Nodup) :
    rowTypeCall columns props = .ok (buildRow columns props) := by
  unfold rowTypeCall
  rw [hfields, if_pos ⟨hnd, fun f hf => hf, fun c hc => hc⟩]

theorem joinLoop_ok_keys_nodup (haystack : List (String × List (String × String)))
    (columns : List String) (inc : Bool) :
    ∀ needle (acc m : List (String × Option (List String))),
      joinLoop haystack columns inc acc needle = .ok m →
      (acc.map Prod.fst).Nodup → (m.map Prod.fst).Nodup := by
  intro needle
  induction needle with
  | nil =>
    intro acc m h hnd
    simp only [joinLoop] at h
    injection h with h
    subst h
    exact hnd
  | cons n0 rest ih =>
    intro acc m h hnd
    cases hlk : alookup haystack n0 with
    | some props =>
      simp only [joinLoop, hlk] at h
      cases hrc : rowTypeCall columns props with
      | error e =>
        rw [hrc] at h
        exact Except.noConfusion h
      | ok row =>
        rw [hrc] at h
        exact ih _ m h (keysNodup_dictInsert acc n0 _ hnd)
    | none =>
      simp only [joinLoop, hlk] at h
      by_cases hinc : inc = true
      · rw [if_pos hinc] at h
        exact ih _ m h (keysNodup_dictInsert acc n0 _ hnd)
      · rw [if_neg hinc] at h
        exact ih _ m h hnd

theorem joinLoop_ok_shape (haystack : List (String × List (String × String)))
    (columns : List String) :
    ∀ needle (acc m : List (String × Option (List String))),
      joinLoop haystack columns false acc needle = .ok m →
      (∀ e ∈ acc, ∃ row, e.2 = some row ∧ row.length = columns.length) →
      ∀ e ∈ m, ∃ row, e.2 = some row ∧ row.length = columns.length := by
  intro needle
  induction needle with
  | nil =>
    intro acc m h hshape
    simp only [joinLoop] at h
    injection h with h
    subst h
    exact hshape
  | cons n0 rest ih =>
    intro acc m h hshape
    cases hlk : alookup haystack n0 with
    | some props =>
      simp only [joinLoop, hlk] at h
      cases hrc : rowTypeCall columns props with
      | error e =>
        rw [hrc] at h
        exact Except.noConfusion h
      | ok row =>
        rw [hrc] at h
        refine ih _ m h ?_
        intro e he
        rcases mem_dictInsert acc n0 _ e he with h' | h'
        · subst h'
          exact ⟨row, rfl, rowTypeCall_length columns props row hrc⟩
        · exact hshape e h'
    | none =>
      simp only [joinLoop, hlk] at h
      rw [if_neg Bool.false_ne_true] at h
      exact ih _ m h hshape

theorem joinLoop_ok_alookup_hit (haystack : List (String × List (String × String)))
    (columns : List String) (inc : Bool) (mol : String)
    (props : List (String × String)) (hhit : alookup haystack mol = some props)
    (hfields : namedtupleFields columns = columns) (hnd : columns.Nodup) :
    ∀ needle (acc m : List (String × Option (List String))),
      joinLoop haystack columns inc acc needle = .ok m →
      (mol ∈ needle ∨ alookup acc mol = some (some (buildRow columns props))) →
      alookup m mol = some (some (buildRow columns props)) := by
  intro needle
  induction needle with
  | nil =>
    intro acc m h hd
    simp only [joinLoop] at h
    injection h with h
    subst h
    rcases hd with hd | hd
    · simp at hd
    · exact hd
  | cons n0 rest ih =>
    intro acc m h hd
    cases hlk : alookup haystack n0 with
    | some props0 =>
      simp only [joinLoop, hlk, rowTypeCall_verbatim columns props0 hfields hnd] at h
      refine ih _ m h ?_
      by_cases hmn : n0 = mol
      · subst hmn
        rw [hhit] at hlk
        injection hlk with hlk
        subst hlk
        right
        rw [alookup_dictInsert]
        simp
      · rcases hd with hd | hd
        · rcases List.mem_cons.mp hd with h' | h'
          · exact absurd h'.symm hmn
          · exact Or.inl h'
        · right
          rw [alookup_dictInsert, if_neg hmn]
          exact hd
    | none =>
      have hmn : n0 ≠ mol := by
        intro hc
        rw [hc, hhit] at hlk
        exact Option.noConfusion hlk
      simp only [joinLoop, hlk] at h
      by_cases hinc : inc = true
      · rw [if_pos hinc] at h
        refine ih _ m h ?_
        rcases hd with hd | hd
        · rcases List.mem_cons.mp hd with h' | h'
          · exact absurd h'.symm hmn
          · exact Or.inl h'
        · right
          rw [alookup_dictInsert, if_neg hmn]
          exact hd
      · rw [if_neg hinc] at h
        refine ih _ m h ?_
        rcases hd with hd | hd
        · rcases List.mem_cons.mp hd with h' | h'
          · exact absurd h'.symm hmn
          · exact Or.inl h'
        · exact Or.inr hd

/-- With every column name kept verbatim by the namedtuple, the needle loop
never raises: every hit's keyword-argument call succeeds. -/
theorem joinLoop_ok_exists (haystack : List (String × List (String × String)))
    (columns : List String) (inc : Bool)
    (hfields : namedtupleFields columns = columns) (hnd : columns.Nodup) :
    ∀ needle (acc : List (String × Option (List String))),
      ∃ m, joinLoop haystack columns inc acc needle = .ok m := by
  intro needle
  induction needle with
  | nil => intro acc; exact ⟨acc, rfl⟩
  | cons n0 rest ih =>
    intro acc
    cases hlk : alookup haystack n0 with
    | some props =>
      obtain ⟨m, hm⟩ := ih (dictInsert acc n0 (some (buildRow columns props)))
      refine ⟨m, ?_⟩
      simp only [joinLoop, hlk, rowTypeCall_verbatim columns props hfields hnd]
      exact hm
    | none =>
      by_cases hinc : inc = true
      · obtain ⟨m, hm⟩ := ih (dictInsert acc n0 none)
        refine ⟨m, ?_⟩
        simp only [joinLoop, hlk]
        rw [if_pos hinc]
        exact hm
      · obtain ⟨m, hm⟩ := ih acc
        refine ⟨m, ?_⟩
        simp only [joinLoop, hlk]
        rw [if_neg hinc]
        exact hm

theorem alookup_of_perm {κ β : Type} [DecidableEq κ]
    (l₁ l₂ : List (κ × β)) (hnd : (l₁.map Prod.fst).Nodup) (hp : l₁.Perm l₂)
    (k : κ) : alookup l₁ k = alookup l₂ k := by
  have hnd₂ : (l₂.map Prod.fst).Nodup := ((hp.map Prod.fst).nodup_iff).mp hnd
  cases hl : alookup l₁ k with
  | some v =>
    exact (alookup_eq_some_of_mem_nodup l₂ k v hnd₂
      (hp.mem_iff.mp (mem_of_alookup_eq_some l₁ k v hl))).symm
  | none =>
    cases hl₂ : alookup l₂ k with
    | none => rfl
    | some v =>
      have : (k, v) ∈ l₁ := hp.mem_iff.mpr (mem_of_alookup_eq_some l₂ k v hl₂)
      rw [alookup_eq_some_of_mem_nodup l₁ k v hnd this] at hl
      exact Option.noConfusion hl

/-- C1 counterexample: for the column list `[ID, A-B]` (reachable via
`-p A-B`), `namedtuple(rename=True)` renames the field to `_1` while the
keyword arguments of line 83 use the verbatim name `A-B`, so a needle
identifier present in the haystack makes `join_results` raise a `TypeError`
instead of producing a result row, refuting the claim for that column
list. -/
theorem C1_join_results_hit_counterexample :
    join_results [("A", [("ID", "A"), ("A-B", "x")])] ["A"] ["ID", "A-B"] false
        = .error .typeErrorRowKwargs ∧
    (join_results [("A", [("ID", "A"), ("A-B", "x")])] ["A"] ["ID", "A-B"] false).isOk
        = false := by
  refine ⟨rfl, rfl⟩

/-- C1 (amended): for a column list that the namedtuple row factory keeps
verbatim -- every name a legal non-keyword identifier not starting with an
underscore, and the names distinct (distinctness is in fact forced by the
verbatim condition, since a repeated name's later occurrence is renamed;
it is assumed explicitly here) -- and nonempty, every needle identifier
present in the haystack makes `join_results` succeed with a table mapping
the identifier to the row whose cell for each requested column is the
haystack record's value for that column, the empty string substituted when
the column is absent; with an identity column list this row is exactly the
original record restricted to the requested columns, since each cell is
`props.get(column, '')`. -/
theorem C1_join_results_hit (haystack : List (String × List (String × String)))
    (needle : List String) (columns : List String) (mol : String)
    (props : List (String × String))
    (hfields : namedtupleFields columns = columns)
    (hnd : columns.Nodup)
    (hcols : columns ≠ [])
    (hmem : mol ∈ needle)
    (hhit : alookup haystack mol = some props) :
    (join_results haystack needle columns false).isOk = true ∧
    ∀ table, join_results haystack needle columns false = .ok table →
      alookup table mol = some (some (buildRow columns props)) := by
  obtain ⟨entries, hloop⟩ :=
    joinLoop_ok_exists haystack columns false hfields hnd needle []
  have hndkeys : (entries.map Prod.fst).Nodup :=
    joinLoop_ok_keys_nodup haystack columns false needle [] entries hloop (by simp)
  have hshape : ∀ e ∈ entries, ∃ row, e.2 = some row ∧ row.length = columns.length :=
    joinLoop_ok_shape haystack columns needle [] entries hloop (by simp)
  have hshape' : ∀ e ∈ entries, ∃ row, e.2 = some row ∧ row ≠ [] := by
    intro e he
    obtain ⟨row, hrow, hlen⟩ := hshape e he
    refine ⟨row, hrow, ?_⟩
    intro hc
    subst hc
    exact hcols (List.length_eq_zero.mp hlen.symm)
  have hlk : alookup entries mol = some (some (buildRow columns props)) :=
    joinLoop_ok_alookup_hit haystack columns false mol props hhit hfields hnd
      needle [] entries hloop (Or.inl hmem)
  obtain ⟨ks, hks⟩ := keyedEntries_ok_of_shape _ hshape'
  obtain ⟨hmap, _⟩ := keyedEntries_ok_inv _ ks hks
  have hjoin : join_results haystack needle columns false
      = .ok ((stableSort (fun a b => keyLe a.1 b.1) ks).map Prod.snd) := by
    unfold join_results
    rw [hloop]
    show (keyedEntries entries).map
        (fun ks => (stableSort (fun a b => keyLe a.1 b.1) ks).map Prod.snd)
      = .ok ((stableSort (fun a b => keyLe a.1 b.1) ks).map Prod.snd)
    rw [hks]
    rfl
  constructor
  · rw [hjoin]
    rfl
  · intro table h
    rw [hjoin] at h
    injection h with h
    subst h
    have hperm : entries.Perm
        ((stableSort (fun a b => keyLe a.1 b.1) ks).map Prod.snd) := by
      rw [← hmap]
      exact ((stableSort_perm _ ks).map Prod.snd).symm
    rw [← alookup_of_perm _ _ hndkeys hperm mol]
    exact hlk

/-- C1 witness: a one-row haystack, a matching needle and the verbatim-kept
column list `[ID, MW]` produce the restricted row. -/
theorem C1_join_results_hit_witness :
    (join_results [("A", [("ID", "A"), ("MW", "10")])] ["A"] ["ID", "MW"] false).isOk
        = true ∧
    ∀ table, join_results [("A", [("ID", "A"), ("MW", "10")])] ["A"] ["ID", "MW"] false
        = .ok table →
      alookup table "A" = some (some (buildRow ["ID", "MW"] [("ID", "A"), ("MW", "10")])) :=
  C1_join_results_hit [("A", [("ID", "A"), ("MW", "10")])] ["A"] ["ID", "MW"] "A"
    [("ID", "A"), ("MW", "10")] (by decide) (by decide) (by decide) (by decide)
    (by decide)

/-- C4: a successful `join_results` table is sorted (pairwise nondecreasing)
by the composite key that takes all non-ID cells in order, each as a base-10
integer when the cell parses as one and as a string otherwise (numbers
ordering before strings, as in Python 2), with the ID cell appended as the
final tie-break. -/
theorem C4_join_results_sorted (haystack : List (String × List (String × String)))
    (needle : List String) (columns : List String)
    (table : List (String × Option (List String)))
    (h : join_results haystack needle columns false = .ok table) :
    table.Pairwise (fun e1 e2 => ∃ k1 k2, entryKey e1 = some k1 ∧
      entryKey e2 = some k2 ∧ keyLe k1 k2 = true) := by
  unfold join_results at h
  cases hjl : joinLoop haystack columns false [] needle with
  | error e =>
    rw [hjl] at h
    exact Except.noConfusion h
  | ok entries =>
    rw [hjl] at h
    have h2 : (keyedEntries entries).map
        (fun ks => (stableSort (fun a b => keyLe a.1 b.1) ks).map Prod.snd)
        = .ok table := h
    cases hke : keyedEntries entries with
    | error e =>
      rw [hke] at h2
      exact Except.noConfusion h2
    | ok ks =>
      rw [hke] at h2
      simp only [Except.map] at h2
      injection h2 with h2
      subst h2
      obtain ⟨hmap, hkeys⟩ := keyedEntries_ok_inv _ ks hke
      have htrans : ∀ a b c : List SKey × (String × Option (List String)),
          keyLe a.1 b.1 = true → keyLe b.1 c.1 = true → keyLe a.1 c.1 = true :=
        fun a b c => keyLe_trans a.1 b.1 c.1
      have htotal : ∀ a b : List SKey × (String × Option (List String)),
          (keyLe a.1 b.1 || keyLe b.1 a.1) = true :=
        fun a b => keyLe_total a.1 b.1
      have hsorted := stableSort_pairwise (fun a b => keyLe a.1 b.1) htrans htotal ks
      have hperm := stableSort_perm (fun a b => keyLe a.1 b.1) ks
      rw [List.pairwise_map]
      refine List.Pairwise.imp_of_mem ?_ hsorted
      intro a b ha hb hab
      exact ⟨a.1, b.1, hkeys a (hperm.mem_iff.mp ha), hkeys b (hperm.mem_iff.mp hb), hab⟩

/-- C4 witness: two rows whose only differing non-ID cells are `"10"` and
`"2"` sort numerically, `"2"` first (`join_results` evaluates to the table
with `B` before `A`), and that table is pairwise ordered by the composite
key. -/
theorem C4_join_results_sorted_witness :
    List.Pairwise (fun e1 e2 => ∃ k1 k2, entryKey e1 = some k1 ∧
        entryKey e2 = some k2 ∧ keyLe k1 k2 = true)
      [("B", some ["B", "2"]), ("A", some ["A", "10"])] :=
  C4_join_results_sorted
    [("A", [("ID", "A"), ("N", "10")]), ("B", [("ID", "B"), ("N", "2")])]
    ["A", "B"] ["ID", "N"]
    [("B", some ["B", "2"]), ("A", some ["A", "10"])] rfl

/-- C5: with the miss-inclusion option disabled a needle identifier absent
from the haystack is omitted (here: empty result), but with the option
enabled `join_results` does not return a null placeholder as the
specification states: `sort_key` evaluates `None[1:]` and the call raises a
`TypeError` instead. -/
theorem C5_join_results_miss_crash :
    join_results [] ["A"] ["ID"] false = .ok [] ∧
    join_results [] ["A"] ["ID"] true = .error .typeErrorNoneRow := by
  constructor
  · rfl
  · rfl

/-- C2 witness: two identically-named properties under the same molecule
yield the conflicting-property error. -/
theorem C2_parse_sdf_conflict_iff_duplicate_witness :
    ∃ p, parse_sdf ["> <P> (M)", "1", "> <P> (M)", "2"] "ID"
      = .error (.conflictingProperty p) :=
  (C2_parse_sdf_conflict_iff_duplicate ["> <P> (M)", "1", "> <P> (M)", "2"] "ID").mpr
    (by decide)

/-- C6 counterexample: for the requested property `A-B` (not a legal
identifier) the claim predicts the column list `[ID, _1]`, but
`create_row_type` keeps the name verbatim in `_prop_names`: renaming only
affects the namedtuple's attribute names. -/
theorem C6_create_row_type_counterexample :
    create_row_type (pySplitSpec "A-B") (some "ID") = ["ID", "A-B"] ∧
    create_row_type_claimed (pySplitSpec "A-B") "ID" = ["ID", "_1"] ∧
    create_row_type (pySplitSpec "A-B") (some "ID")
      ≠ create_row_type_claimed (pySplitSpec "A-B") "ID" := by
  refine ⟨by decide, by decide, by decide⟩

/-- C6 (amended): the produced column list has the ID column first,
followed by the requested properties in order with every occurrence equal
to the ID column removed and names kept verbatim (no renaming in this
list); this holds for an explicit list and hence for a split specification
string. -/
theorem C6_create_row_type_columns (l : List String) (idProp : String) :
    (create_row_type l (some idProp)).head? = some idProp ∧
    (create_row_type l (some idProp)).tail = l.filter (fun n => n ≠ idProp) ∧
    idProp ∉ (create_row_type l (some idProp)).tail ∧
    create_row_type_of_spec "" (some idProp) = [idProp] := by
  refine ⟨rfl, rfl, ?_, rfl⟩
  intro hc
  simp only [create_row_type, List.tail_cons] at hc
  rcases List.mem_filter.mp hc with ⟨_, hdec⟩
  simp at hdec

theorem foldl_dictInsert_alookup {κ β : Type} [DecidableEq κ] (key : β → κ) :
    ∀ (rows : List β) (acc : List (κ × β)) (k : κ),
      alookup (rows.foldl (fun acc row => dictInsert acc (key row) row) acc) k =
        match (rows.filter (fun r => decide (key r = k))).getLast? with
        | some r => some r
        | none => alookup acc k := by
  intro rows
  induction rows with
  | nil => intro acc k; simp
  | cons r rest ih =>
    intro acc k
    simp only [List.foldl_cons, ih]
    by_cases hk : key r = k
    · simp only [List.filter_cons, decide_eq_true hk, if_pos True.intro]
      cases hrest : rest.filter (fun r => decide (key r = k)) with
      | nil =>
        simp only [List.getLast?_singleton]
        rw [alookup_dictInsert]
        simp [hk]
      | cons f fs =>
        obtain ⟨r', hr'⟩ : ∃ r', (f :: fs).getLast? = some r' := by
          cases hg : (f :: fs).getLast? with
          | none => exact absurd (List.getLast?_eq_none_iff.mp hg) (by simp)
          | some r' => exact ⟨r', rfl⟩
        rw [List.getLast?_cons_cons, hr']
    · have : (decide (key r = k)) = false := by simp [hk]
      simp only [List.filter_cons, this]
      cases hrest : rest.filter (fun r => decide (key r = k)) with
      | nil =>
        simp only [List.getLast?_nil]
        rw [alookup_dictInsert]
        have : key r ≠ k := hk
        simp [this]
      | cons f fs =>
        obtain ⟨r', hr'⟩ : ∃ r', (f :: fs).getLast? = some r' := by
          cases hg : (f :: fs).getLast? with
          | none => exact absurd (List.getLast?_eq_none_iff.mp hg) (by simp)
          | some r' => exact ⟨r', rfl⟩
        rw [if_neg Bool.false_ne_true, hr']

/-- C7: when a CSV input contains two or more data rows with the same
ID-column value, `read_csv` binds that identifier to the last such row in
file order; no error is raised (the accumulation is total). -/
theorem C7_read_csv_last_wins (rows : List (List (String × String)))
    (idProp v : String)
    (hdup : 2 ≤ (rows.filter
      (fun r => decide (alookup r idProp = some v))).length) :
    alookup (read_csv rows idProp) (some v) =
      (rows.filter (fun r => decide (alookup r idProp = some v))).getLast? := by
  have h := foldl_dictInsert_alookup (fun r => alookup r idProp) rows [] (some v)
  rw [read_csv, h]
  cases hl : (rows.filter (fun r => decide (alookup r idProp = some v))).getLast? with
  | none =>
    exfalso
    rw [List.getLast?_eq_none_iff.mp hl] at hdup
    simp at hdup
  | some r => rfl

/-- C7 witness: two rows with ID `A`; the returned mapping binds `A` to the
second one. -/
theorem C7_read_csv_last_wins_witness :
    alookup (read_csv [[("ID", "A"), ("X", "1")], [("ID", "A"), ("X", "2")]] "ID")
        (some "A")
      = some [("ID", "A"), ("X", "2")] := by
  have h := C7_read_csv_last_wins
    [[("ID", "A"), ("X", "1")], [("ID", "A"), ("X", "2")]] "ID" "A" (by decide)
  simpa using h

theorem csvBody_eq_joinCrlfLines :
    ∀ table : List (String × List String),
      csvBody table = joinCrlfLines (table.map (fun e => renderCsvRow e.2)) := by
  intro table
  induction table with
  | nil => rfl
  | cons e rest ih =>
    obtain ⟨molKey, row⟩ := e
    simp only [csvBody, List.map_cons, joinCrlfLines, List.foldr_cons, ih]

/-- C8: `write_csv` renders the canonical column list as the first
CRLF-terminated output line, followed by one line per result row in table
order; for columns `[ID, MW]` and the single row `{ID: C1, MW: 100}` the
output is exactly the two lines `ID,MW` and `C1,100`. -/
theorem C8_write_csv_layout (table : List (String × List String)) (cols : List String) :
    write_csv table (some cols)
        = joinCrlfLines (renderCsvRow cols :: table.map (fun e => renderCsvRow e.2)) ∧
    write_csv [("C1", ["C1", "100"])] (some ["ID", "MW"]) = "ID,MW\r\nC1,100\r\n" := by
  constructor
  · simp only [write_csv, joinCrlfLines, List.foldr_cons, csvBody_eq_joinCrlfLines]
  · rfl

theorem lineSplit_word_newline :
    ∀ (w rest : List Char), (∀ c ∈ w, c ≠ '\n') →
      lineSplit (w ++ '\n' :: rest) = w :: lineSplit rest := by
  intro w
  induction w with
  | nil =>
    intro rest _
    simp [lineSplit]
  | cons c w' ih =>
    intro rest hw
    have hc : c ≠ '\n' := hw c (List.mem_cons_self _ _)
    have hrec := ih rest (fun d hd => hw d (List.mem_cons_of_mem _ hd))
    show (if c = '\n' then [] :: lineSplit (w' ++ '\n' :: rest)
        else match lineSplit (w' ++ '\n' :: rest) with
          | s :: ss => (c :: s) :: ss
          | [] => [[c]]) = (c :: w') :: lineSplit rest
    rw [if_neg hc, hrec]

theorem lstBody_lineSplit {α : Type} :
    ∀ table : List (String × α),
      (∀ e ∈ table, ∀ c ∈ (e.1 : String).data, c ≠ '\n') →
      lineSplit (lstBody table).data = table.map (fun e => e.1.data) ++ [[]] := by
  intro table
  induction table with
  | nil => intro _; rfl
  | cons e rest ih =>
    obtain ⟨mol, v⟩ := e
    intro hkeys
    have hmol : ∀ c ∈ mol.data, c ≠ '\n' :=
      hkeys (mol, v) (List.mem_cons_self _ _)
    have hdata : (lstBody ((mol, v) :: rest)).data
        = mol.data ++ '\n' :: (lstBody rest).data := by
      simp [lstBody, String.data_append]
    rw [hdata, lineSplit_word_newline mol.data _ hmol,
      ih (fun e he => hkeys e (List.mem_cons_of_mem _ he))]
    simp

/-- C9 counterexample: for a one-identifier table the list-file contents
have four lines, a three-line preamble (`*e*` and two blank lines) plus the
identifier, where the claim's fixed two-line preamble followed by one line
per identifier predicts three lines. -/
theorem C9_write_lst_counterexample :
    linesOf (write_lst [("A", (none : Option (List String)))]) = ["*e*", "", "", "A"] ∧
    (linesOf (write_lst [("A", (none : Option (List String)))])).length ≠ 2 + 1 := by
  refine ⟨rfl, by decide⟩

/-- C9 (amended): for identifiers containing no newline character,
`write_lst` writes a fixed three-line preamble (the token line `*e*`
followed by two empty lines) and then exactly one bare identifier per line,
one per key of the table in table order and nothing else. -/
theorem C9_write_lst_lines {α : Type} (table : List (String × α))
    (hkeys : ∀ e ∈ table, ∀ c ∈ (e.1 : String).data, c ≠ '\n') :
    linesOf (write_lst table) = "*e*" :: "" :: "" :: table.map Prod.fst := by
  have hdata : (write_lst table).data
      = '*' :: 'e' :: '*' :: '\n' :: '\n' :: '\n' :: (lstBody table).data := by
    simp only [write_lst, String.data_append]
    rfl
  have h1 : lineSplit ('*' :: 'e' :: '*' :: '\n' :: '\n' :: '\n' :: (lstBody table).data)
      = ['*', 'e', '*'] :: [] :: [] :: lineSplit (lstBody table).data := by
    have e1 := lineSplit_word_newline ['*', 'e', '*']
      ('\n' :: '\n' :: (lstBody table).data) (by decide)
    have e2 := lineSplit_word_newline [] ('\n' :: (lstBody table).data) (by simp)
    have e3 := lineSplit_word_newline [] ((lstBody table).data) (by simp)
    simp only [List.cons_append, List.nil_append] at e1 e2 e3
    rw [e1, e2, e3]
  unfold linesOf
  rw [hdata, h1, lstBody_lineSplit table hkeys]
  have hshape : (['*', 'e', '*'] :: [] :: [] :: (table.map (fun e => e.1.data) ++ [[]]))
      = ((['*', 'e', '*'] :: [] :: [] :: table.map (fun e => e.1.data))
          ++ [([] : List Char)]) := by
    simp
  rw [hshape, List.map_append, List.map_singleton, List.dropLast_concat]
  have hmapeq : table.map (String.mk ∘ fun e => e.1.data) = table.map Prod.fst :=
    List.map_congr_left (fun e _ => rfl)
  simp only [List.map_cons, List.map_map, hmapeq]

/-- C9 witness for the amended statement at a concrete table. -/
theorem C9_write_lst_lines_witness :
    linesOf (write_lst [("A", (0 : Nat)), ("B", (1 : Nat))])
      = ["*e*", "", "", "A", "B"] :=
  C9_write_lst_lines [("A", 0), ("B", 1)] (by decide)
